import Mathlib

/-!
Verification of the track-selection, command-assembly, ledger and orchestration
logic of the autoEncodeService repository (`src/src/encoder.py`, with its rule
table in `src/src/helper/constants.py`).

Embedding conventions:
* Python floats are modelled as rationals (`ℚ`); the rule thresholds `0.1` and
  `1` become `1/10` and `1`.  None of the statements below probes the
  float/rational boundary.
* Python strings that the ledger manipulates character by character are
  modelled as `List Char` (abbreviated `Str`); strings that are only passed
  around whole (command tokens, languages, rule names) are Lean `String`s.
* `pymediainfo.MediaInfo.parse` is an external effect; it is passed in as an
  oracle `parse : String → Except PyErr MediaInfo`.  `PyErr` has the two
  exception kinds the code distinguishes (`FileNotFoundError`, `ValueError`).
* The file system holding the processed-files ledger is a state
  `Option Str` (`none` = the ledger file does not exist, `some c` = it exists
  with content `c`).
* `subprocess.run` of HandBrakeCLI is abstracted by a success oracle
  `encodeOk : Str → Bool`; `os.path.isfile` by `isFile : Str → Bool`.
-/

namespace AutoEncode

/-! ### Character-level string model (for the ledger and orchestration loop) -/

/-- Python strings viewed as character lists. -/
abbrev Str := List Char

/-- Whitespace test used by `str.strip()` (the ASCII whitespace characters
that can actually occur around a ledger line). -/
def isWS (c : Char) : Bool := c == ' ' || c == '\t' || c == '\n' || c == '\r'

/-- Model of Python `str.strip()`: drop whitespace from both ends. -/
def pyStrip (s : Str) : Str :=
  ((s.dropWhile isWS).reverse.dropWhile isWS).reverse

/-- Model of iterating a Python text file: the chunks delimited by `'\n'`,
where a trailing newline does not produce a final empty line (each yielded
line is given without its terminating `'\n'`, which `str.strip()` would
remove anyway). -/
def pyLines : Str → List Str
  | [] => []
  | c :: cs =>
    if c = '\n' then [] :: pyLines cs
    else
      match pyLines cs with
      | [] => [[c]]
      | l :: ls => (c :: l) :: ls

/-- Path-separator test of `ntpath` (the code targets Windows: both `'\\'`
and `'/'` separate components). -/
def isSep (c : Char) : Bool := c == '/' || c == '\\'

/-- Model of `os.path.basename`: the part of the path after the last
separator. -/
def basename (s : Str) : Str :=
  (s.reverse.takeWhile (fun c => !isSep c)).reverse

/-- Content of the ledger file, reading a missing file as empty (used to model
append mode `'a'`, which creates the file when missing). -/
def contentOf : Option Str → Str
  | none => []
  | some c => c

/-- Shallow embedding of `read_processed_files` (encoder.py lines 36–44):
if the ledger file exists, the set of its stripped lines, otherwise the empty
set. -/
def read_processed_files : Option Str → Finset Str
  | none => ∅
  | some c => ((pyLines c).map pyStrip).toFinset

/-- Shallow embedding of `write_processed_file` (encoder.py lines 47–52):
append `basename(file_path)` plus a newline to the ledger file (mode `'a'`
creates the file when missing). -/
def write_processed_file (file_path : Str) (st : Option Str) : Option Str :=
  some (contentOf st ++ basename file_path ++ ['\n'])

/-- A ledger content is well formed when it is empty or newline-terminated.
Every content the code itself produces is of this shape, since each write
appends a line ending in `'\n'`. -/
def wfContent (c : Str) : Prop := c = [] ∨ ∃ c0, c = c0 ++ ['\n']

/-- Well-formedness of a ledger state: the file is absent, or its content is
well formed. -/
def wellFormed : Option Str → Prop
  | none => True
  | some c => wfContent c

/-! ### Media metadata model -/

/-- The two exception kinds of `pymediainfo.MediaInfo.parse` that the code
distinguishes in its `except` clauses. -/
inductive PyErr where
  | fileNotFound
  | valueError
deriving DecidableEq

/-- An audio track as consumed by the code: only the `language` attribute is
read (`getattr(track, 'language', None)`), which may be absent. -/
structure AudioTrack where
  language : Option String
deriving DecidableEq

/-- A text (subtitle) track with the five pymediainfo attributes the code
reads.  `proportion_of_this_stream` is the raw fraction before the `* 1000`
scaling; `default` is pymediainfo's `"Yes"`/`"No"` string. -/
structure TextTrack where
  stream_identifier : Nat
  language : Option String
  stream_size : Nat
  proportion_of_this_stream : ℚ
  default : String
deriving DecidableEq

/-- The parsed media info: its audio and text track lists. -/
structure MediaInfo where
  audio_tracks : List AudioTrack
  text_tracks : List TextTrack

/-! ### Audio track selector (`get_audio_indices`, encoder.py lines 55–100) -/

/-- Inner loop of `get_audio_indices` for one language: scan the tracks from
position `i`, appending the 1-based index of each track whose language equals
`lang`, stopping after the first hit when `first_only` is set. -/
def audio_lang_scan (lang : String) (first_only : Bool) : List AudioTrack → Nat → List String
  | [], _ => []
  | t :: ts, i =>
    if t.language == some lang then
      toString (i + 1) :: (if first_only then [] else audio_lang_scan lang first_only ts (i + 1))
    else audio_lang_scan lang first_only ts (i + 1)

/-- Pure core of `get_audio_indices` on an already-parsed track list: the
empty string when there are no audio tracks, otherwise the comma-joined
indices collected per language in preference order. -/
def get_audio_indices_core (audio_tracks : List AudioTrack) (languages : List String)
    (first_only : Bool) : String :=
  if audio_tracks.isEmpty then ""
  else String.intercalate ","
    ((languages.map (fun lang => audio_lang_scan lang first_only audio_tracks 0)).flatten)

/-- Shallow embedding of `get_audio_indices` including its `try/except`:
`FileNotFoundError` and `ValueError` from the parse are both caught and give
`""`.  `languages = none` models the Python default `['de', 'en']`. -/
def get_audio_indices (parse : String → Except PyErr MediaInfo) (input_file : String)
    (languages : Option (List String)) (first_only : Bool) : String :=
  let langs := languages.getD ["de", "en"]
  match parse input_file with
  | .error _ => ""
  | .ok mi => get_audio_indices_core mi.audio_tracks langs first_only

/-! ### Subtitle track selector (`get_subtitles`, encoder.py lines 103–149) -/

/-- The `subtitle_info` dictionary as first built for a track (before a
criterion decorates it): 1-based track number, language, size, proportion
already scaled by 1000, and the stream's own default flag. -/
structure SubtitleInfo where
  track_nr : Nat
  language : Option String
  stream_size : Nat
  proportion : ℚ
  default : String
deriving DecidableEq

/-- A selected subtitle: the `subtitle_info` dictionary after a criterion
fired on it — `default` overwritten by the criterion's default flag, plus the
criterion's `priority` and `name`. -/
structure SelectedSubtitle where
  track_nr : Nat
  language : Option String
  stream_size : Nat
  proportion : ℚ
  default : String
  priority : Int
  name : String
deriving DecidableEq

/-- A subtitle rule from `SUBTITLE_CRITERIA`: name, priority, predicate and
default flag. -/
structure Criterion where
  name : String
  priority : Int
  condition : SubtitleInfo → Bool
  default : String

/-- The default rule table `SUBTITLE_CRITERIA` of
`src/src/helper/constants.py` lines 9–31 (thresholds `0.1` and `1` on the
scaled proportion). -/
def SUBTITLE_CRITERIA : List Criterion := [
  { name := "Fremdsprache", priority := 1,
    condition := fun s => s.language == some "de" && decide (s.proportion < 1/10),
    default := "Yes" },
  { name := "Deutsch", priority := 2,
    condition := fun s => s.language == some "de" && decide (s.proportion < 1),
    default := "No" },
  { name := "English", priority := 3,
    condition := fun s => s.language == some "en" && decide (s.proportion < 1),
    default := "No" }]

/-- Building the `subtitle_info` dictionary from a text track (encoder.py
lines 129–135): `track_nr = int(stream_identifier) + 1` and
`proportion = float(proportion_of_this_stream) * 1000`. -/
def mkSubtitleInfo (t : TextTrack) : SubtitleInfo :=
  { track_nr := t.stream_identifier + 1, language := t.language,
    stream_size := t.stream_size, proportion := t.proportion_of_this_stream * 1000,
    default := t.default }

/-- Decorating a matched `subtitle_info` with its criterion's data
(encoder.py lines 139–141). -/
def mkSelected (info : SubtitleInfo) (c : Criterion) : SelectedSubtitle :=
  { track_nr := info.track_nr, language := info.language, stream_size := info.stream_size,
    proportion := info.proportion, default := c.default, priority := c.priority, name := c.name }

/-- Inner criterion loop of `get_subtitles` (lines 137–144): the first
criterion whose condition holds and whose name has not fired yet
(`criteria_status` is keyed by name). -/
def firstMatch (fired : List String) (info : SubtitleInfo) : List Criterion → Option Criterion
  | [] => none
  | c :: rest =>
    if c.condition info && !(fired.contains c.name) then some c
    else firstMatch fired info rest

/-- Outer track loop of `get_subtitles` (lines 128–144), with the fired
criterion names accumulated in `fired`. -/
def select_loop (criteria : List Criterion) : List TextTrack → List String → List SelectedSubtitle
  | [], _ => []
  | t :: ts, fired =>
    let info := mkSubtitleInfo t
    match firstMatch fired info criteria with
    | some c => mkSelected info c :: select_loop criteria ts (c.name :: fired)
    | none => select_loop criteria ts fired

/-- Stable insertion step: `x` is placed before the first strictly larger
priority, after all earlier entries of equal priority. -/
def insertByPriority (x : SelectedSubtitle) : List SelectedSubtitle → List SelectedSubtitle
  | [] => [x]
  | y :: ys => if x.priority ≤ y.priority then x :: y :: ys else y :: insertByPriority x ys

/-- Stable sort by ascending priority, modelling
`subtitle_list.sort(key=lambda x: x['priority'])` (line 146); Python's sort
is stable, and the two stable ascending sorts agree on every list. -/
def sortByPriority : List SelectedSubtitle → List SelectedSubtitle
  | [] => []
  | x :: xs => insertByPriority x (sortByPriority xs)

/-- Pure core of `get_subtitles` on an already-parsed text-track list,
parameterised by the rule table. -/
def get_subtitles_pure (criteria : List Criterion) (tracks : List TextTrack) :
    List SelectedSubtitle :=
  sortByPriority (select_loop criteria tracks [])

/-- Shallow embedding of `get_subtitles` including its `try/except`: only
`FileNotFoundError` is caught (returning the falsy empty value, modelled as
`.ok []`); a `ValueError` from the parse propagates. -/
def get_subtitles (parse : String → Except PyErr MediaInfo) (input_file : String) :
    Except PyErr (List SelectedSubtitle) :=
  match parse input_file with
  | .error .fileNotFound => .ok []
  | .error e => .error e
  | .ok mi => .ok (get_subtitles_pure SUBTITLE_CRITERIA mi.text_tracks)

/-! ### Command assembly (`add_subtitle_command` lines 152–203 and
`encode_video` lines 221–260) -/

/-- Shallow embedding of `add_subtitle_command`: unchanged command on an
empty (falsy) selection, otherwise the command extended with the burned-none
directive, comma-joined track numbers, comma-joined names, and the default
directive naming the first entry. -/
def add_subtitle_command (command : List String) (subtitles : List SelectedSubtitle) :
    List String :=
  match subtitles with
  | [] => command
  | s0 :: rest =>
    let subs := s0 :: rest
    let subtitle_tracks := subs.map (fun s => toString s.track_nr)
    let subtitle_names := subs.map (fun s => s.name)
    let subtitle_command :=
      ["--subtitle-burned=none"]
        ++ ["--subtitle", String.intercalate "," subtitle_tracks]
        ++ ["--subname", String.intercalate "," subtitle_names]
        ++ ["--subtitle-default", toString s0.track_nr]
    command ++ subtitle_command

/-- The `HANDBRAKE_CLI_PATH` constant of `constants.py`. -/
def HANDBRAKE_CLI_PATH : String := "src/HandBrakeCLI.exe"

/-- The fixed command list built in `encode_video` (lines 235–258), with the
input path, output path and audio index string spliced in.  Note that
`'--audio', audio_command` is part of this list unconditionally. -/
def base_command (input_file output_file audio_command : String) : List String :=
  [HANDBRAKE_CLI_PATH,
   "--input", input_file,
   "--output", output_file,
   "--encoder", "x265",
   "--encoder-preset", "medium",
   "--encoder-profile", "main10",
   "--quality", "17.5",
   "--vfr",
   "--crop-mode", " auto",
   "--auto-anamorphic",
   "--lapsharp=light",
   "--hqdn3d=light",
   "--auto-anamorphic",
   "--aencoder", "copy",
   "--audio-copy-mask", "ac3,aac,eac3,truehd,dts,dtshd,flac",
   "--audio-fallback", "av_aac",
   "--audio", audio_command,
   "--aname", "Deutsch,English",
   "--native-language", "deu",
   "--markers",
   "--turbo",
   "--format", "av_mkv"]

/-- The complete command assembly of `encode_video` (lines 232–260): audio
indices via `get_audio_indices` with its default arguments, then
`add_subtitle_command` on the result of `get_subtitles`.  A `ValueError`
escaping `get_subtitles` propagates out of `encode_video`. -/
def encode_video_command (parse : String → Except PyErr MediaInfo)
    (input_file output_file : String) : Except PyErr (List String) :=
  let audio_command := get_audio_indices parse input_file none true
  match get_subtitles parse input_file with
  | .error e => .error e
  | .ok subs => .ok (add_subtitle_command (base_command input_file output_file audio_command) subs)

/-! ### Orchestration loop (`process_all_videos`, encoder.py lines 17–33) -/

/-- The `INPUT_FOLDER` constant of `constants.py` (it ends in a separator, so
`os.path.join` concatenates). -/
def INPUT_FOLDER : Str := "videos\\input\\".data

/-- Ledger effect of one `encode_video` call (lines 261–269): the ledger is
appended exactly when the external encode succeeds
(`write_processed_file(input_file)` after `subprocess.run`); on
`CalledProcessError` or a missing tool the ledger is untouched. -/
def encode_video_ledger (encodeOk : Str → Bool) (input_file : Str) (st : Option Str) :
    Option Str :=
  if encodeOk input_file then write_processed_file input_file st else st

/-- Body of the `for file in files` loop of `process_all_videos`, with the
`already_processed` set fixed (it is read once, before the loop).  Returns
the list of directory entries for which an encode was invoked, together with
the final ledger state. -/
def process_loop (isFile encodeOk : Str → Bool) (already : Finset Str) :
    List Str → Option Str → List Str × Option Str
  | [], st => ([], st)
  | f :: fs, st =>
    let input_file_path := INPUT_FOLDER ++ f
    if isFile input_file_path = true ∧ f ∉ already then
      let st1 := encode_video_ledger encodeOk input_file_path st
      let r := process_loop isFile encodeOk already fs st1
      (f :: r.1, r.2)
    else process_loop isFile encodeOk already fs st

/-- Shallow embedding of `process_all_videos`: read the processed set once,
then run the loop over the directory listing. -/
def process_all_videos (isFile encodeOk : Str → Bool) (files : List Str) (st : Option Str) :
    List Str × Option Str :=
  process_loop isFile encodeOk (read_processed_files st) files st

/-! ### Specification-side definitions (written from the spec's words, to be
compared with the source-side definitions above) -/

/-- Position of the first list entry satisfying `p`, if any. -/
def firstIndexWith (p : AudioTrack → Bool) : List AudioTrack → Option Nat
  | [] => none
  | t :: ts => if p t then some 0 else (firstIndexWith p ts).map (· + 1)

/-- Modelled from the spec (§4.2): for each preference language in order, the
1-based index of the first stream whose language equals it; a language with
no match contributes nothing. -/
def selectAudioSpec (tracks : List AudioTrack) (preference : List String) : List Nat :=
  preference.filterMap
    (fun lang => (firstIndexWith (fun t => t.language == some lang) tracks).map (· + 1))

/-- Modelled from the spec (§4.3): the first rule, in rule order, that has
not yet fired (per-rule flag) and whose predicate holds; returns that rule
together with the flag list in which it is marked fired. -/
def findRuleSpec (info : SubtitleInfo) : List Criterion → List Bool → Option (Criterion × List Bool)
  | c :: cs, b :: bs =>
    if b = false ∧ c.condition info = true then some (c, true :: bs)
    else
      match findRuleSpec info cs bs with
      | some (r, bs1) => some (r, b :: bs1)
      | none => none
  | _, _ => none

/-- Modelled from the spec (§4.3): scan streams in ascending order, assign
each stream to the first unfired matching rule, record the selection and mark
the rule fired. -/
def selectSpecLoop (criteria : List Criterion) : List TextTrack → List Bool → List SelectedSubtitle
  | [], _ => []
  | t :: ts, flags =>
    let info := mkSubtitleInfo t
    match findRuleSpec info criteria flags with
    | some (c, flags1) => mkSelected info c :: selectSpecLoop criteria ts flags1
    | none => selectSpecLoop criteria ts flags

/-- Modelled from the spec (§4.3): run the per-rule-fired scan with all flags
initially false, then sort the selections ascending by priority. -/
def selectSubtitlesSpec (criteria : List Criterion) (tracks : List TextTrack) :
    List SelectedSubtitle :=
  sortByPriority (selectSpecLoop criteria tracks (criteria.map (fun _ => false)))

/-! ## Helper lemmas: audio selector -/

/-- One language scan with `first_only` finds exactly the first matching
index, rendered 1-based. -/
lemma audio_lang_scan_first (lang : String) (tracks : List AudioTrack) :
    ∀ i : Nat, audio_lang_scan lang true tracks i =
      ((firstIndexWith (fun t => t.language == some lang) tracks).map
        (fun j => toString (i + j + 1))).toList := by
  induction tracks with
  | nil => intro i; rfl
  | cons t ts ih =>
    intro i
    by_cases hp : (t.language == some lang) = true
    · simp [audio_lang_scan, firstIndexWith, hp]
    · simp only [audio_lang_scan, firstIndexWith, hp, if_neg, Bool.false_eq_true,
        not_false_eq_true, if_false]
      rw [ih (i + 1)]
      cases firstIndexWith (fun t => t.language == some lang) ts with
      | none => rfl
      | some j => simp [Option.map_map]; congr 1; omega

/-- The flattened per-language scans agree with the spec-side `filterMap`. -/
lemma audio_scans_eq_spec (tracks : List AudioTrack) (preference : List String) :
    ((preference.map (fun lang => audio_lang_scan lang true tracks 0)).flatten) =
      (selectAudioSpec tracks preference).map toString := by
  induction preference with
  | nil => rfl
  | cons lang rest ih =>
    rw [List.map_cons, List.flatten_cons, audio_lang_scan_first lang tracks 0]
    simp only [selectAudioSpec, List.filterMap_cons] at ih ⊢
    cases h : firstIndexWith (fun t => t.language == some lang) tracks with
    | none => simpa [h] using ih
    | some j => simpa [h, Nat.zero_add] using ih

/-! ## C3: the audio selector -/

/-- C3: for every stream list and ordered preference list, the audio selector
(with its `first_only` default) returns exactly the comma-joined 1-based
indices of the first stream per preference language, in preference order,
skipping languages without a match; an empty stream list yields the empty
result; and streams `[de, en, de]` with preference `[de, en]` yield
indices `[1, 2]`, rendered `"1,2"`. -/
theorem c3_audio_selector_matches_spec :
    (∀ (tracks : List AudioTrack) (preference : List String),
      get_audio_indices_core tracks preference true =
        String.intercalate "," ((selectAudioSpec tracks preference).map toString)) ∧
    (∀ preference : List String, get_audio_indices_core [] preference true = "") ∧
    get_audio_indices_core
      [⟨some "de"⟩, ⟨some "en"⟩, ⟨some "de"⟩] ["de", "en"] true = "1,2" ∧
    selectAudioSpec [⟨some "de"⟩, ⟨some "en"⟩, ⟨some "de"⟩] ["de", "en"] = [1, 2] := by
  refine ⟨?_, ?_, ?_, ?_⟩
  · intro tracks preference
    cases tracks with
    | nil =>
      have : selectAudioSpec [] preference = [] := by
        simp [selectAudioSpec, firstIndexWith]
      simp [get_audio_indices_core, this, String.intercalate]
    | cons t ts =>
      simp only [get_audio_indices_core, List.isEmpty_cons, if_false, Bool.false_eq_true]
      rw [audio_scans_eq_spec]
  · intro preference; rfl
  · rfl
  · rfl

/-! ## C4: the spec's worked subtitle example -/

/-- The three streams of the spec's worked example, with the proportions it
lists (`0.05`, `0.5`, `0.3`). -/
def c4_streams : List TextTrack :=
  [ { stream_identifier := 0, language := some "de", stream_size := 100,
      proportion_of_this_stream := 1/20, default := "No" },
    { stream_identifier := 1, language := some "de", stream_size := 100,
      proportion_of_this_stream := 1/2, default := "No" },
    { stream_identifier := 2, language := some "en", stream_size := 100,
      proportion_of_this_stream := 3/10, default := "No" } ]

/-- The same three streams with proportions divided by 1000
(`0.00005`, `0.0005`, `0.0003`), so that the values the selector compares
after its ×1000 scaling are `0.05`, `0.5`, `0.3`. -/
def c4_streams_scaled : List TextTrack :=
  [ { stream_identifier := 0, language := some "de", stream_size := 100,
      proportion_of_this_stream := 1/20000, default := "No" },
    { stream_identifier := 1, language := some "de", stream_size := 100,
      proportion_of_this_stream := 1/2000, default := "No" },
    { stream_identifier := 2, language := some "en", stream_size := 100,
      proportion_of_this_stream := 3/10000, default := "No" } ]

/-- C4 counterexample: on the spec's streams as given (proportions `0.05`,
`0.5`, `0.3`), the selector scales them to `50`, `500`, `300`, every rule
threshold (`0.1` resp. `1`) fails, and the default rule set selects nothing —
not the three claimed selections. -/
theorem c4_counterexample_no_selection :
    get_subtitles_pure SUBTITLE_CRITERIA c4_streams = [] ∧
    (get_subtitles_pure SUBTITLE_CRITERIA c4_streams).length ≠ 3 := by
  constructor <;>
    norm_num [get_subtitles_pure, c4_streams, select_loop, firstMatch, mkSubtitleInfo,
      SUBTITLE_CRITERIA, sortByPriority]

/-- C4 amended: the claimed assignment (stream 1 → "Fremdsprache",
stream 2 → "Deutsch", stream 3 → "English", in that sorted order) holds for
streams whose raw proportions are the example's values divided by 1000, i.e.
whose ×1000-scaled proportions are `0.05`, `0.5`, `0.3`; on the example as
literally given the selector returns no selections. -/
theorem c4_amended_example :
    get_subtitles_pure SUBTITLE_CRITERIA c4_streams_scaled =
      [ { track_nr := 1, language := some "de", stream_size := 100, proportion := 1/20,
          default := "Yes", priority := 1, name := "Fremdsprache" },
        { track_nr := 2, language := some "de", stream_size := 100, proportion := 1/2,
          default := "No", priority := 2, name := "Deutsch" },
        { track_nr := 3, language := some "en", stream_size := 100, proportion := 3/10,
          default := "No", priority := 3, name := "English" } ] ∧
    get_subtitles_pure SUBTITLE_CRITERIA c4_streams = [] := by
  constructor <;>
    norm_num [get_subtitles_pure, c4_streams, c4_streams_scaled, select_loop, firstMatch,
      mkSubtitleInfo, SUBTITLE_CRITERIA, mkSelected, sortByPriority, insertByPriority]

/-! ## C5: the subtitle segment of the command -/

/-- C5: on a non-empty selection list the assembler appends exactly the
burned-none directive, the comma-joined 1-based indices in list order, the
comma-joined rule names in the same order, and a default directive naming the
first entry's index (the entries' own default flags are never consulted, so
this holds even when the first rule's default flag is false); on an empty
selection list the command is returned unchanged, with no subtitle token of
any kind. -/
theorem c5_subtitle_segment :
    (∀ (command : List String) (s0 : SelectedSubtitle) (rest : List SelectedSubtitle),
      add_subtitle_command command (s0 :: rest) =
        command ++
          ["--subtitle-burned=none",
           "--subtitle",
           String.intercalate "," ((s0 :: rest).map (fun s => toString s.track_nr)),
           "--subname",
           String.intercalate "," ((s0 :: rest).map (fun s => s.name)),
           "--subtitle-default", toString s0.track_nr]) ∧
    (∀ command : List String, add_subtitle_command command [] = command) ∧
    (∀ (command : List String) (subtitles : List SelectedSubtitle) (d : String),
      add_subtitle_command command
          (subtitles.map (fun s => { s with default := d })) =
        add_subtitle_command command subtitles) := by
  refine ⟨?_, ?_, ?_⟩
  · intro command s0 rest
    simp [add_subtitle_command]
  · intro command; rfl
  · intro command subtitles d
    cases subtitles with
    | nil => rfl
    | cons s0 rest => simp [add_subtitle_command, List.map_map, Function.comp_def]

/-! ## Helper lemmas: the ledger's line discipline -/

lemma pyLines_ne_nil : ∀ s : Str, s ≠ [] → pyLines s ≠ [] := by
  intro s hs
  cases s with
  | nil => exact absurd rfl hs
  | cons c cs =>
    by_cases hc : c = '\n'
    · simp [pyLines, hc]
    · simp only [pyLines, hc, if_false]
      cases pyLines cs <;> simp

lemma pyLines_append_newline (y : Str) :
    ∀ c : Str, pyLines (c ++ '\n' :: y) = pyLines (c ++ ['\n']) ++ pyLines y := by
  intro c
  induction c with
  | nil => simp [pyLines]
  | cons a as ih =>
    by_cases ha : a = '\n'
    · simp [pyLines, ha, ih]
    · have hne : pyLines (as ++ ['\n']) ≠ [] := pyLines_ne_nil _ (by simp)
      obtain ⟨l, ls, heq⟩ : ∃ l ls, pyLines (as ++ ['\n']) = l :: ls := by
        cases h : pyLines (as ++ ['\n']) with
        | nil => exact absurd h hne
        | cons l ls => exact ⟨l, ls, rfl⟩
      simp [pyLines, ha, ih, heq]

lemma pyLines_line (f : Str) (h : '\n' ∉ f) : pyLines (f ++ ['\n']) = [f] := by
  induction f with
  | nil => simp [pyLines]
  | cons a as ih =>
    have ha : a ≠ '\n' := fun hc => h (hc ▸ List.mem_cons_self a as)
    have ih' := ih (fun hm => h (List.mem_cons_of_mem a hm))
    simp [pyLines, ha, ih']

lemma pyLines_wf_append (c y : Str) (h : wfContent c) :
    pyLines (c ++ y) = pyLines c ++ pyLines y := by
  rcases h with h | ⟨c0, rfl⟩
  · simp [h, pyLines]
  · have : c0 ++ ['\n'] ++ y = c0 ++ '\n' :: y := by simp
    rw [this, pyLines_append_newline y c0]

lemma wfContent_contentOf (st : Option Str) (h : wellFormed st) : wfContent (contentOf st) := by
  cases st with
  | none => exact Or.inl rfl
  | some c => exact h

lemma wellFormed_write (f : Str) (st : Option Str) :
    wellFormed (write_processed_file f st) := by
  exact Or.inr ⟨contentOf st ++ basename f, by simp [write_processed_file]⟩

lemma read_contentOf (st : Option Str) :
    read_processed_files (some (contentOf st)) = read_processed_files st := by
  cases st <;> rfl

lemma read_append_content (c y : Str) (h : wfContent c) :
    read_processed_files (some (c ++ y)) =
      read_processed_files (some c) ∪ ((pyLines y).map pyStrip).toFinset := by
  simp [read_processed_files, pyLines_wf_append c y h]

lemma read_write_general (f : Str) (st : Option Str) (hwf : wellFormed st) :
    read_processed_files (write_processed_file f st) =
      read_processed_files st ∪ ((pyLines (basename f ++ ['\n'])).map pyStrip).toFinset := by
  have hgroup : contentOf st ++ basename f ++ ['\n'] =
      contentOf st ++ (basename f ++ ['\n']) := by simp
  rw [write_processed_file, hgroup,
    read_append_content _ _ (wfContent_contentOf st hwf), read_contentOf]

lemma read_write (f : Str) (st : Option Str) (hwf : wellFormed st) (hnl : '\n' ∉ basename f) :
    read_processed_files (write_processed_file f st) =
      insert (pyStrip (basename f)) (read_processed_files st) := by
  rw [read_write_general f st hwf, pyLines_line _ hnl, Finset.union_comm]
  simp [Finset.insert_eq]

lemma dropWhile_all_append (ws s : Str) (h : ∀ a ∈ ws, isWS a = true) :
    (ws ++ s).dropWhile isWS = s.dropWhile isWS := by
  induction ws with
  | nil => rfl
  | cons a as ih =>
    have ha : isWS a = true := h a (List.mem_cons_self a as)
    rw [List.cons_append, List.dropWhile_cons_of_pos ha]
    exact ih (fun b hb => h b (List.mem_cons_of_mem a hb))

lemma dropWhile_append_of_ne_nil (s t : Str) (h : s.dropWhile isWS ≠ []) :
    (s ++ t).dropWhile isWS = s.dropWhile isWS ++ t := by
  induction s with
  | nil => exact absurd rfl h
  | cons a as ih =>
    by_cases ha : isWS a = true
    · rw [List.cons_append, List.dropWhile_cons_of_pos ha, List.dropWhile_cons_of_pos ha]
      exact ih (by rwa [List.dropWhile_cons_of_pos ha] at h)
    · have ha' : ¬ isWS a = true := ha
      rw [List.cons_append, List.dropWhile_cons_of_neg ha', List.dropWhile_cons_of_neg ha',
        List.cons_append]

lemma pyStrip_pad (ws1 ws2 s : Str) (h1 : ∀ a ∈ ws1, isWS a = true)
    (h2 : ∀ a ∈ ws2, isWS a = true) :
    pyStrip (ws1 ++ s ++ ws2) = pyStrip s := by
  unfold pyStrip
  rw [List.append_assoc, dropWhile_all_append ws1 _ h1]
  by_cases hs : s.dropWhile isWS = []
  · have hsall : ∀ a ∈ s, isWS a = true := List.dropWhile_eq_nil_iff.mp hs
    have hall : ∀ a ∈ s ++ ws2, isWS a = true := by
      intro a ha
      rcases List.mem_append.mp ha with ha | ha
      · exact hsall a ha
      · exact h2 a ha
    rw [List.dropWhile_eq_nil_iff.mpr hall, hs]
  · rw [dropWhile_append_of_ne_nil s ws2 hs, List.reverse_append,
      dropWhile_all_append ws2.reverse _ (fun a ha => h2 a (List.mem_reverse.mp ha))]

/-! ## C7: record followed by contains -/

/-- C7 counterexample: for the path `" x"` (a basename with leading
whitespace), `record` writes the line `" x"` but `read` strips it to `"x"`,
so `contains(" x")` is false immediately after `record(" x")` — the
record-then-contains round trip fails for whitespace-padded identifiers. -/
theorem c7_counterexample_padded_id :
    basename [' ', 'x'] = [' ', 'x'] ∧
    write_processed_file [' ', 'x'] none = some [' ', 'x', '\n'] ∧
    basename [' ', 'x'] ∉ read_processed_files (write_processed_file [' ', 'x'] none) := by
  refine ⟨by decide, by decide, by decide⟩

/-- C7 amended: for an identifier whose basename is free of surrounding
whitespace and contains no newline, and for any ledger state the code itself
can produce (absent, empty, or newline-terminated), `record(id)` followed by
`contains(id)` returns true — durably, since the write appends
`basename ++ "\n"` to the stored content rather than rewriting it; and a
missing ledger file reads as the empty set. -/
theorem c7_amended_record_then_contains :
    (∀ (st : Option Str) (file_path : Str),
      wellFormed st →
      pyStrip (basename file_path) = basename file_path →
      '\n' ∉ basename file_path →
      basename file_path ∈ read_processed_files (write_processed_file file_path st)) ∧
    read_processed_files none = ∅ ∧
    (∀ (st : Option Str) (file_path : Str),
      write_processed_file file_path st =
        some (contentOf st ++ basename file_path ++ ['\n'])) := by
  refine ⟨?_, rfl, fun _ _ => rfl⟩
  intro st file_path hwf hstrip hnl
  rw [read_write _ _ hwf hnl, hstrip]
  exact Finset.mem_insert_self _ _

/-- C7 witness: the amended statement applied to the absent ledger and the
path `"x"`. -/
theorem c7_witness :
    ['x'] ∈ read_processed_files (write_processed_file ['x'] none) := by
  have h := c7_amended_record_then_contains.1 none ['x'] trivial (by decide) (by decide)
  simpa using h

/-! ## C10: set semantics of the ledger -/

/-- C10 counterexample: with the (externally produced) ledger content `"x"`
that lacks a terminating newline, the first append merges with the last line
(producing the line `"xa"`), so recording `"a"` once does not make it a
member, while recording it twice does — the membership set is not independent
of duplicate appends for arbitrary file contents. -/
theorem c10_counterexample_unterminated_content :
    ['a'] ∉ read_processed_files (write_processed_file ['a'] (some ['x'])) ∧
    ['a'] ∈ read_processed_files
      (write_processed_file ['a'] (write_processed_file ['a'] (some ['x']))) ∧
    read_processed_files
        (write_processed_file ['a'] (write_processed_file ['a'] (some ['x']))) ≠
      read_processed_files (write_processed_file ['a'] (some ['x'])) := by
  refine ⟨by decide, by decide, by decide⟩

/-- C10 amended: reading yields the duplicate-free set of the file's
whitespace-stripped lines; hence, for every ledger state the code itself can
produce (absent, empty, or newline-terminated), appending the same identifier
twice yields the same set as appending it once, and an identifier stored with
surrounding (non-newline) whitespace padding is still looked up successfully
by its stripped form. -/
theorem c10_amended_set_semantics :
    (∀ c : Str, read_processed_files (some c) = ((pyLines c).map pyStrip).toFinset) ∧
    (∀ (st : Option Str) (p : Str), wellFormed st →
      read_processed_files (write_processed_file p (write_processed_file p st)) =
        read_processed_files (write_processed_file p st)) ∧
    (∀ (c ws1 ws2 id : Str), wfContent c →
      (∀ a ∈ ws1, isWS a = true ∧ a ≠ '\n') →
      (∀ a ∈ ws2, isWS a = true ∧ a ≠ '\n') →
      pyStrip id = id → '\n' ∉ id →
      id ∈ read_processed_files (some (c ++ (ws1 ++ id ++ ws2) ++ ['\n']))) := by
  refine ⟨fun _ => rfl, ?_, ?_⟩
  · intro st p hwf
    rw [read_write_general p _ (wellFormed_write p st), read_write_general p st hwf,
      Finset.union_assoc, Finset.union_self]
  · intro c ws1 ws2 id hwfc h1 h2 hstrip hnl
    have hnl' : '\n' ∉ ws1 ++ id ++ ws2 := by
      intro hm
      rcases List.mem_append.mp hm with hm | hm
      · rcases List.mem_append.mp hm with hm | hm
        · exact (h1 _ hm).2 rfl
        · exact hnl hm
      · exact (h2 _ hm).2 rfl
    rw [List.append_assoc c (ws1 ++ id ++ ws2) ['\n'],
      read_append_content _ _ hwfc, pyLines_line _ hnl']
    have hpad : pyStrip (ws1 ++ (id ++ ws2)) = id := by
      rw [← List.append_assoc,
        pyStrip_pad ws1 ws2 id (fun a ha => (h1 a ha).1) (fun a ha => (h2 a ha).1), hstrip]
    simp [hpad]

/-- C10 witness: the amended statement's two conditional parts applied to the
content `"x\n"`, the path `"a"`, and the padding `" a "`. -/
theorem c10_witness :
    read_processed_files (write_processed_file ['a'] (write_processed_file ['a'] (some ['x', '\n']))) =
      read_processed_files (write_processed_file ['a'] (some ['x', '\n'])) ∧
    ['a'] ∈ read_processed_files (some (['x', '\n'] ++ ([' '] ++ ['a'] ++ [' ']) ++ ['\n'])) := by
  constructor
  · exact c10_amended_set_semantics.2.1 (some ['x', '\n']) ['a'] (Or.inr ⟨['x'], rfl⟩)
  · exact c10_amended_set_semantics.2.2 ['x', '\n'] [' '] [' '] ['a'] (Or.inr ⟨['x'], rfl⟩)
      (by decide) (by decide) (by decide) (by decide)

/-! ## Helper lemmas: command assembly -/

/-- The subtitle stage only ever appends to the command it is given. -/
lemma add_subtitle_command_extends (command : List String) (subtitles : List SelectedSubtitle) :
    ∃ e, add_subtitle_command command subtitles = command ++ e := by
  cases subtitles with
  | nil => exact ⟨[], by simp [add_subtitle_command]⟩
  | cons s0 rest =>
    refine ⟨["--subtitle-burned=none",
       "--subtitle", String.intercalate "," ((s0 :: rest).map (fun s => toString s.track_nr)),
       "--subname", String.intercalate "," ((s0 :: rest).map (fun s => s.name)),
       "--subtitle-default", toString s0.track_nr], ?_⟩
    simp [add_subtitle_command]

lemma within_append_right {α : Type} (l s e : List α) (h : l <:+: s) : l <:+: s ++ e := by
  obtain ⟨u, v, huv⟩ := h
  exact ⟨u, v ++ e, by rw [← huv]; simp⟩

/-- The audio token pair sits inside the fixed baseline command. -/
lemma audio_token_in_base (input_file output_file audio_command : String) :
    ["--audio", audio_command] <:+: base_command input_file output_file audio_command := by
  exact ⟨[HANDBRAKE_CLI_PATH,
    "--input", input_file, "--output", output_file, "--encoder", "x265",
    "--encoder-preset", "medium", "--encoder-profile", "main10", "--quality", "17.5",
    "--vfr", "--crop-mode", " auto", "--auto-anamorphic", "--lapsharp=light",
    "--hqdn3d=light", "--auto-anamorphic", "--aencoder", "copy",
    "--audio-copy-mask", "ac3,aac,eac3,truehd,dts,dtshd,flac",
    "--audio-fallback", "av_aac"],
   ["--aname", "Deutsch,English", "--native-language", "deu", "--markers", "--turbo",
    "--format", "av_mkv"], rfl⟩

/-- The audio display-name token pair sits inside the fixed baseline command. -/
lemma aname_token_in_base (input_file output_file audio_command : String) :
    ["--aname", "Deutsch,English"] <:+: base_command input_file output_file audio_command := by
  exact ⟨[HANDBRAKE_CLI_PATH,
    "--input", input_file, "--output", output_file, "--encoder", "x265",
    "--encoder-preset", "medium", "--encoder-profile", "main10", "--quality", "17.5",
    "--vfr", "--crop-mode", " auto", "--auto-anamorphic", "--lapsharp=light",
    "--hqdn3d=light", "--auto-anamorphic", "--aencoder", "copy",
    "--audio-copy-mask", "ac3,aac,eac3,truehd,dts,dtshd,flac",
    "--audio-fallback", "av_aac", "--audio", audio_command],
   ["--native-language", "deu", "--markers", "--turbo", "--format", "av_mkv"], rfl⟩

/-! ## C6: the audio segment of the command -/

/-- A parse oracle that successfully parses every path but reports no audio
and no text tracks. -/
def c6_parse : String → Except PyErr MediaInfo := fun _ => .ok { audio_tracks := [], text_tracks := [] }

/-- C6 counterexample: with no audio track selected (empty index string) the
assembled command still contains the `--audio` token — the token is part of
the unconditional baseline (followed by an empty value), so "audio token
present iff selection non-empty" is false. -/
theorem c6_counterexample_audio_token_always :
    get_audio_indices c6_parse "in.mkv" none true = "" ∧
    encode_video_command c6_parse "in.mkv" "out.mkv" =
      .ok (base_command "in.mkv" "out.mkv" "") ∧
    "--audio" ∈ base_command "in.mkv" "out.mkv" "" ∧
    ¬ (("--audio" ∈ base_command "in.mkv" "out.mkv" "") ↔
        get_audio_indices c6_parse "in.mkv" none true ≠ "") := by
  refine ⟨rfl, rfl, by simp [base_command], ?_⟩
  intro hiff
  exact (hiff.mp (by simp [base_command])) rfl

/-- C6 amended: whenever the subtitle stage raises nothing, the assembled
command is the baseline (which unconditionally carries the token `--audio`
followed by the comma-joined selected indices — the empty string when the
selection is empty) extended by the subtitle segment, and it always contains
both the audio token pair and the fixed display-name pair
`--aname Deutsch,English`, regardless of whether any audio index was
selected. -/
theorem c6_amended_audio_segment :
    ∀ (parse : String → Except PyErr MediaInfo) (input_file output_file : String)
      (subs : List SelectedSubtitle),
      get_subtitles parse input_file = .ok subs →
      encode_video_command parse input_file output_file =
        .ok (add_subtitle_command
          (base_command input_file output_file (get_audio_indices parse input_file none true))
          subs) ∧
      ["--audio", get_audio_indices parse input_file none true] <:+:
        add_subtitle_command
          (base_command input_file output_file (get_audio_indices parse input_file none true))
          subs ∧
      ["--aname", "Deutsch,English"] <:+:
        add_subtitle_command
          (base_command input_file output_file (get_audio_indices parse input_file none true))
          subs := by
  intro parse input_file output_file subs h
  obtain ⟨e, he⟩ := add_subtitle_command_extends
    (base_command input_file output_file (get_audio_indices parse input_file none true)) subs
  refine ⟨?_, ?_, ?_⟩
  · simp [encode_video_command, h]
  · rw [he]
    exact within_append_right _ _ _ (audio_token_in_base _ _ _)
  · rw [he]
    exact within_append_right _ _ _ (aname_token_in_base _ _ _)

/-- C6 witness: the amended statement applied to the no-track parse oracle,
where the audio selection is empty and the audio token is present anyway. -/
theorem c6_witness :
    get_audio_indices c6_parse "in.mkv" none true = "" ∧
    ["--audio", get_audio_indices c6_parse "in.mkv" none true] <:+:
      add_subtitle_command
        (base_command "in.mkv" "out.mkv" (get_audio_indices c6_parse "in.mkv" none true)) [] :=
  ⟨rfl, (c6_amended_audio_segment c6_parse "in.mkv" "out.mkv" [] rfl).2.1⟩

/-! ## C8: degraded behaviour on metadata failure -/

/-- A parse oracle that raises `ValueError` on every path. -/
def c8_parse : String → Except PyErr MediaInfo := fun _ => .error .valueError

/-- C8 counterexample: on a parse failure of kind `ValueError` the audio
selector degrades to the empty result, but `get_subtitles` catches only
`FileNotFoundError`, so the subtitle selection propagates the exception
instead of returning an empty result. -/
theorem c8_counterexample_valueerror_raises :
    get_audio_indices c8_parse "in.mkv" none true = "" ∧
    get_subtitles c8_parse "in.mkv" = .error .valueError ∧
    ∀ subs : List SelectedSubtitle, get_subtitles c8_parse "in.mkv" ≠ .ok subs := by
  refine ⟨rfl, rfl, ?_⟩
  intro subs h
  exact Except.noConfusion h

/-- C8 amended: on any parse failure the audio selector returns the empty
string (it catches both `FileNotFoundError` and `ValueError`); the subtitle
selector returns the empty (falsy) result only for `FileNotFoundError`, and
propagates a `ValueError` instead of degrading. -/
theorem c8_amended_degrade_on_failure :
    ∀ (parse : String → Except PyErr MediaInfo) (input_file : String) (e : PyErr),
      parse input_file = .error e →
      get_audio_indices parse input_file none true = "" ∧
      (e = .fileNotFound → get_subtitles parse input_file = .ok []) ∧
      (e = .valueError → get_subtitles parse input_file = .error .valueError) := by
  intro parse input_file e h
  refine ⟨?_, ?_, ?_⟩
  · simp [get_audio_indices, h]
  · intro he; subst he; simp [get_subtitles, h]
  · intro he; subst he; simp [get_subtitles, h]

/-- C8 witness: the amended statement applied to the always-`ValueError`
oracle. -/
theorem c8_witness :
    get_audio_indices c8_parse "in.mkv" none true = "" ∧
    get_subtitles c8_parse "in.mkv" = .error .valueError :=
  ⟨(c8_amended_degrade_on_failure c8_parse "in.mkv" .valueError rfl).1,
   (c8_amended_degrade_on_failure c8_parse "in.mkv" .valueError rfl).2.2 rfl⟩

/-! ## Helper lemmas: orchestration loop -/

/-- Invariant of one pass of the directory loop: the ledger stays well
formed and only grows; every file entry ends up in the processed set; every
invoked entry was a file not yet processed; and if nothing qualifies, the
pass is a no-op. -/
lemma process_loop_spec (isFile encodeOk : Str → Bool) (already : Finset Str) :
    ∀ (files : List Str) (st : Option Str),
      wellFormed st →
      already ⊆ read_processed_files st →
      (∀ f ∈ files, basename (INPUT_FOLDER ++ f) = f) →
      (∀ f ∈ files, pyStrip f = f) →
      (∀ f ∈ files, '\n' ∉ f) →
      (∀ f ∈ files, isFile (INPUT_FOLDER ++ f) = true → encodeOk (INPUT_FOLDER ++ f) = true) →
      wellFormed (process_loop isFile encodeOk already files st).2 ∧
      read_processed_files st ⊆
        read_processed_files (process_loop isFile encodeOk already files st).2 ∧
      (∀ f ∈ files, isFile (INPUT_FOLDER ++ f) = true →
        f ∈ read_processed_files (process_loop isFile encodeOk already files st).2) ∧
      (∀ f ∈ (process_loop isFile encodeOk already files st).1,
        f ∈ files ∧ isFile (INPUT_FOLDER ++ f) = true ∧ f ∉ already) ∧
      ((∀ f ∈ files, ¬(isFile (INPUT_FOLDER ++ f) = true ∧ f ∉ already)) →
        process_loop isFile encodeOk already files st = ([], st)) := by
  intro files
  induction files with
  | nil =>
    intro st hwf _ _ _ _ _
    exact ⟨hwf, Finset.Subset.refl _, by simp, by simp [process_loop], fun _ => rfl⟩
  | cons f fs ih =>
    intro st hwf hsub hbn hstrip hnl henc
    have hmem : f ∈ f :: fs := List.mem_cons_self f fs
    by_cases hcond : isFile (INPUT_FOLDER ++ f) = true ∧ f ∉ already
    · have hok : encodeOk (INPUT_FOLDER ++ f) = true := henc f hmem hcond.1
      have hst1 : encode_video_ledger encodeOk (INPUT_FOLDER ++ f) st =
          write_processed_file (INPUT_FOLDER ++ f) st := by
        simp [encode_video_ledger, hok]
      have hnlf : '\n' ∉ basename (INPUT_FOLDER ++ f) := by
        rw [hbn f hmem]; exact hnl f hmem
      have hread1 : read_processed_files (write_processed_file (INPUT_FOLDER ++ f) st) =
          insert f (read_processed_files st) := by
        rw [read_write _ _ hwf hnlf, hbn f hmem, hstrip f hmem]
      have IH := ih (write_processed_file (INPUT_FOLDER ++ f) st)
        (wellFormed_write _ _)
        (by rw [hread1]
            exact hsub.trans (Finset.subset_insert _ _))
        (fun g hg => hbn g (List.mem_cons_of_mem f hg))
        (fun g hg => hstrip g (List.mem_cons_of_mem f hg))
        (fun g hg => hnl g (List.mem_cons_of_mem f hg))
        (fun g hg => henc g (List.mem_cons_of_mem f hg))
      have hunfold : process_loop isFile encodeOk already (f :: fs) st =
          (f :: (process_loop isFile encodeOk already fs
              (write_processed_file (INPUT_FOLDER ++ f) st)).1,
            (process_loop isFile encodeOk already fs
              (write_processed_file (INPUT_FOLDER ++ f) st)).2) := by
        simp [process_loop, hcond, hst1]
      rw [hunfold]
      refine ⟨IH.1, ?_, ?_, ?_, ?_⟩
      · refine Finset.Subset.trans ?_ IH.2.1
        rw [hread1]; exact Finset.subset_insert _ _
      · intro g hg hfile
        rcases List.mem_cons.mp hg with rfl | hg
        · exact IH.2.1 (by rw [hread1]; exact Finset.mem_insert_self _ _)
        · exact IH.2.2.1 g hg hfile
      · intro g hg
        rcases List.mem_cons.mp hg with rfl | hg
        · exact ⟨hmem, hcond.1, hcond.2⟩
        · obtain ⟨h1, h2, h3⟩ := IH.2.2.2.1 g hg
          exact ⟨List.mem_cons_of_mem f h1, h2, h3⟩
      · intro hall
        exact absurd hcond (hall f hmem)
    · have hunfold : process_loop isFile encodeOk already (f :: fs) st =
          process_loop isFile encodeOk already fs st := by
        simp [process_loop, hcond]
      have IH := ih st hwf hsub
        (fun g hg => hbn g (List.mem_cons_of_mem f hg))
        (fun g hg => hstrip g (List.mem_cons_of_mem f hg))
        (fun g hg => hnl g (List.mem_cons_of_mem f hg))
        (fun g hg => henc g (List.mem_cons_of_mem f hg))
      rw [hunfold]
      refine ⟨IH.1, IH.2.1, ?_, ?_, ?_⟩
      · intro g hg hfile
        rcases List.mem_cons.mp hg with rfl | hg
        · have : g ∈ already := by
            by_contra hga
            exact hcond ⟨hfile, hga⟩
          exact IH.2.1 (hsub this)
        · exact IH.2.2.1 g hg hfile
      · intro g hg
        obtain ⟨h1, h2, h3⟩ := IH.2.2.2.1 g hg
        exact ⟨List.mem_cons_of_mem f h1, h2, h3⟩
      · intro hall
        exact IH.2.2.2.2 (fun g hg => hall g (List.mem_cons_of_mem f hg))

/-! ## C9: idempotence of the orchestration loop -/

/-- The single directory entry `" a"` (a file name with a leading space). -/
def c9_files : List Str := [[' ', 'a']]

/-- First run of the loop over `c9_files`, with every path a file and every
encode successful, starting from an absent ledger. -/
def c9_run1 : List Str × Option Str :=
  process_all_videos (fun _ => true) (fun _ => true) c9_files none

/-- Second run of the loop over the same directory listing, starting from the
ledger the first run produced. -/
def c9_run2 : List Str × Option Str :=
  process_all_videos (fun _ => true) (fun _ => true) c9_files c9_run1.2

/-- C9 counterexample: the file `" a"` is encoded by the first run and its
basename `" a"` is appended, but the read strips the stored line to `"a"`,
so the second run — with no new files — encodes `" a"` again and grows the
ledger. -/
theorem c9_counterexample_padded_name :
    c9_run1.1 = [[' ', 'a']] ∧ c9_run2.1 ≠ [] ∧ c9_run2.2 ≠ c9_run1.2 := by
  refine ⟨by decide, by decide, by decide⟩

/-- C9 amended: for directory entries that are unchanged by whitespace
stripping, contain no newline, and whose basename under the input folder is
the entry itself (all true of ordinary file names), and for a prior ledger
state the code can produce: every invoked entry is a file whose id was not in
the processed set read at the start of the run (non-files and already
processed ids are never encoded), and — when the attempted encodes succeed —
a second run over the same listing invokes no encode and leaves the ledger
unchanged. -/
theorem c9_amended_idempotent :
    ∀ (isFile encodeOk : Str → Bool) (files : List Str) (st : Option Str),
      wellFormed st →
      (∀ f ∈ files, basename (INPUT_FOLDER ++ f) = f) →
      (∀ f ∈ files, pyStrip f = f) →
      (∀ f ∈ files, '\n' ∉ f) →
      (∀ f ∈ files, isFile (INPUT_FOLDER ++ f) = true → encodeOk (INPUT_FOLDER ++ f) = true) →
      (∀ f ∈ (process_all_videos isFile encodeOk files st).1,
        f ∈ files ∧ isFile (INPUT_FOLDER ++ f) = true ∧
          f ∉ read_processed_files st) ∧
      (process_all_videos isFile encodeOk files
          (process_all_videos isFile encodeOk files st).2).1 = [] ∧
      (process_all_videos isFile encodeOk files
          (process_all_videos isFile encodeOk files st).2).2 =
        (process_all_videos isFile encodeOk files st).2 := by
  intro isFile encodeOk files st hwf hbn hstrip hnl henc
  have L1 := process_loop_spec isFile encodeOk (read_processed_files st) files st
    hwf (Finset.Subset.refl _) hbn hstrip hnl henc
  have L2 := process_loop_spec isFile encodeOk
    (read_processed_files (process_loop isFile encodeOk (read_processed_files st) files st).2)
    files (process_loop isFile encodeOk (read_processed_files st) files st).2
    L1.1 (Finset.Subset.refl _) hbn hstrip hnl henc
  have hnop := L2.2.2.2.2 (by
    intro f hf hc
    exact hc.2 (L1.2.2.1 f hf hc.1))
  refine ⟨L1.2.2.2.1, ?_, ?_⟩
  · simp only [process_all_videos]
    rw [hnop]
  · simp only [process_all_videos]
    rw [hnop]

/-- C9 witness: the amended statement applied to the single well-behaved
file name `"b"`, an absent ledger, and oracles that make every path a file
and every encode succeed. -/
theorem c9_witness :
    (process_all_videos (fun _ => true) (fun _ => true) [['b']]
        (process_all_videos (fun _ => true) (fun _ => true) [['b']] none).2).1 = [] ∧
    (process_all_videos (fun _ => true) (fun _ => true) [['b']]
        (process_all_videos (fun _ => true) (fun _ => true) [['b']] none).2).2 =
      (process_all_videos (fun _ => true) (fun _ => true) [['b']] none).2 := by
  have h := c9_amended_idempotent (fun _ => true) (fun _ => true) [['b']] none
    trivial (by decide) (by decide) (by decide) (by decide)
  exact ⟨h.2.1, h.2.2⟩

/-! ## Helper lemmas: the subtitle selection loop -/

/-- What a successful inner criterion scan guarantees: the returned criterion
is in the table, its condition held, and its name had not fired. -/
lemma firstMatch_spec (fired : List String) (info : SubtitleInfo) :
    ∀ (cs : List Criterion) (c : Criterion), firstMatch fired info cs = some c →
      c ∈ cs ∧ c.condition info = true ∧ c.name ∉ fired := by
  intro cs
  induction cs with
  | nil => intro c h; exact absurd h (by simp [firstMatch])
  | cons c0 rest ih =>
    intro c h
    by_cases hc : (c0.condition info && !(fired.contains c0.name)) = true
    · rw [firstMatch, if_pos hc] at h
      obtain rfl : c0 = c := Option.some.inj h
      obtain ⟨h1, h2⟩ := Bool.and_eq_true_iff.mp hc
      refine ⟨List.mem_cons_self _ _, h1, ?_⟩
      have : fired.contains c0.name = false := by
        cases hcc : fired.contains c0.name with
        | false => rfl
        | true => rw [hcc] at h2; simp at h2
      simpa [List.elem_iff] using this
    · rw [firstMatch, if_neg hc] at h
      obtain ⟨h1, h2, h3⟩ := ih c h
      exact ⟨List.mem_cons_of_mem _ h1, h2, h3⟩

/-- The names selected by the outer loop are pairwise distinct, none of them
had fired before the loop started, and each selection carries the name and
priority of some criterion in the table. -/
lemma select_loop_invariants (criteria : List Criterion) :
    ∀ (ts : List TextTrack) (fired : List String),
      ((select_loop criteria ts fired).map (fun s => s.name)).Nodup ∧
      (∀ s ∈ select_loop criteria ts fired,
        s.name ∉ fired ∧ ∃ c ∈ criteria, s.name = c.name ∧ s.priority = c.priority) := by
  intro ts
  induction ts with
  | nil => intro fired; simp [select_loop]
  | cons t ts ih =>
    intro fired
    cases hm : firstMatch fired (mkSubtitleInfo t) criteria with
    | none =>
      have : select_loop criteria (t :: ts) fired = select_loop criteria ts fired := by
        simp [select_loop, hm]
      rw [this]; exact ih fired
    | some c =>
      obtain ⟨hcmem, hccond, hcnot⟩ := firstMatch_spec fired (mkSubtitleInfo t) criteria c hm
      have hunfold : select_loop criteria (t :: ts) fired =
          mkSelected (mkSubtitleInfo t) c :: select_loop criteria ts (c.name :: fired) := by
        simp [select_loop, hm]
      obtain ⟨ihnd, ihmem⟩ := ih (c.name :: fired)
      rw [hunfold]
      constructor
      · rw [List.map_cons, List.nodup_cons]
        refine ⟨?_, ihnd⟩
        intro hmem
        obtain ⟨s, hs, hseq⟩ := List.mem_map.mp hmem
        exact (ihmem s hs).1 (hseq ▸ List.mem_cons_self _ _)
      · intro s hs
        rcases List.mem_cons.mp hs with rfl | hs
        · exact ⟨hcnot, c, hcmem, rfl, rfl⟩
        · obtain ⟨h1, h2⟩ := ihmem s hs
          exact ⟨fun hin => h1 (List.mem_cons_of_mem _ hin), h2⟩

lemma insertByPriority_perm (x : SelectedSubtitle) :
    ∀ l : List SelectedSubtitle, (insertByPriority x l).Perm (x :: l) := by
  intro l
  induction l with
  | nil => exact List.Perm.refl _
  | cons y ys ih =>
    by_cases h : x.priority ≤ y.priority
    · rw [insertByPriority, if_pos h]
    · rw [insertByPriority, if_neg h]
      exact (ih.cons y).trans (List.Perm.swap x y ys)

lemma sortByPriority_perm : ∀ l : List SelectedSubtitle, (sortByPriority l).Perm l := by
  intro l
  induction l with
  | nil => exact List.Perm.refl _
  | cons x xs ih =>
    exact (insertByPriority_perm x (sortByPriority xs)).trans (ih.cons x)

lemma pairwise_insertByPriority (x : SelectedSubtitle) :
    ∀ l : List SelectedSubtitle,
      l.Pairwise (fun a b => a.priority ≤ b.priority) →
      (insertByPriority x l).Pairwise (fun a b => a.priority ≤ b.priority) := by
  intro l
  induction l with
  | nil => intro _; simp [insertByPriority]
  | cons y ys ih =>
    intro h
    obtain ⟨hy, hys⟩ := List.pairwise_cons.mp h
    by_cases hxy : x.priority ≤ y.priority
    · rw [insertByPriority, if_pos hxy]
      refine List.pairwise_cons.mpr ⟨?_, h⟩
      intro b hb
      rcases List.mem_cons.mp hb with rfl | hb
      · exact hxy
      · exact le_trans hxy (hy b hb)
    · rw [insertByPriority, if_neg hxy]
      refine List.pairwise_cons.mpr ⟨?_, ih hys⟩
      intro b hb
      have hb' : b ∈ x :: ys := (insertByPriority_perm x ys).mem_iff.mp hb
      rcases List.mem_cons.mp hb' with rfl | hb'
      · exact le_of_lt (lt_of_not_le hxy)
      · exact hy b hb'

lemma sortByPriority_sorted :
    ∀ l : List SelectedSubtitle,
      (sortByPriority l).Pairwise (fun a b => a.priority ≤ b.priority) := by
  intro l
  induction l with
  | nil => simp [sortByPriority]
  | cons x xs ih => exact pairwise_insertByPriority x (sortByPriority xs) ih

/-! ## C2: output invariants of the subtitle selector -/

/-- C2: for every rule table with pairwise distinct priorities and every
stream list, the selector's output is strictly ascending in priority (in
particular sorted ascending) and contains at most one selection per rule
(the selected names are pairwise distinct — each rule fires at most once per
file, however many streams would match it). -/
theorem c2_sorted_and_one_selection_per_rule :
    ∀ (criteria : List Criterion) (tracks : List TextTrack),
      criteria.Pairwise (fun a b => a.priority ≠ b.priority) →
      (get_subtitles_pure criteria tracks).Pairwise (fun a b => a.priority < b.priority) ∧
      ((get_subtitles_pure criteria tracks).map (fun s => s.name)).Nodup := by
  intro criteria tracks hprio
  have hperm : (get_subtitles_pure criteria tracks).Perm (select_loop criteria tracks []) :=
    sortByPriority_perm _
  obtain ⟨hnd, hfrom⟩ := select_loop_invariants criteria tracks []
  have hnames : ((get_subtitles_pure criteria tracks).map (fun s => s.name)).Nodup :=
    ((hperm.map _).nodup_iff).mpr hnd
  refine ⟨?_, hnames⟩
  have hle : (get_subtitles_pure criteria tracks).Pairwise
      (fun a b => a.priority ≤ b.priority) := sortByPriority_sorted _
  have hnamene : (get_subtitles_pure criteria tracks).Pairwise
      (fun a b => a.name ≠ b.name) := List.pairwise_map.mp hnames
  have hne : (get_subtitles_pure criteria tracks).Pairwise
      (fun a b => a.priority ≠ b.priority) := by
    refine hnamene.imp_of_mem ?_
    intro a b ha hb hab
    obtain ⟨_, ca, hca, han, hap⟩ := hfrom a (hperm.mem_iff.mp ha)
    obtain ⟨_, cb, hcb, hbn, hbp⟩ := hfrom b (hperm.mem_iff.mp hb)
    have hcane : ca ≠ cb := by
      intro hcc
      exact hab (by rw [han, hbn, hcc])
    have hsym : Symmetric (fun a b : Criterion => a.priority ≠ b.priority) :=
      fun _ _ h => Ne.symm h
    have := hprio.forall hsym hca hcb hcane
    rw [hap, hbp]
    exact this
  exact (hle.and hne).imp (fun h => lt_of_le_of_ne h.1 h.2)

/-- C2 witness: the invariants at the default rule table (priorities 1, 2, 3
are pairwise distinct) and the worked example's streams. -/
theorem c2_witness :
    SUBTITLE_CRITERIA.Pairwise (fun a b => a.priority ≠ b.priority) ∧
    ((get_subtitles_pure SUBTITLE_CRITERIA c4_streams_scaled).map (fun s => s.name)).Nodup :=
  ⟨by decide,
   (c2_sorted_and_one_selection_per_rule SUBTITLE_CRITERIA c4_streams_scaled (by decide)).2⟩

/-! ## Helper lemmas: agreement of the code's name-keyed fired dictionary
with the spec's per-rule fired flags (for rule tables with distinct names,
as the spec's data model requires of rule names) -/

/-- One scan over the rule table: under the invariant that flag `j` is set
exactly when rule `j`'s name has fired, the spec-side scan and the code-side
scan pick the same rule, and the updated flags re-establish the invariant
for the name list extended by the picked rule. -/
lemma matcher_agree (info : SubtitleInfo) :
    ∀ (cs : List Criterion) (bs : List Bool) (fired : List String),
      bs.length = cs.length →
      (∀ (j : Nat) (hj : j < cs.length) (hb : j < bs.length),
        bs[j] = true ↔ (cs[j]).name ∈ fired) →
      (cs.map (fun c => c.name)).Nodup →
      (findRuleSpec info cs bs = none ∧ firstMatch fired info cs = none) ∨
      (∃ c bs1, findRuleSpec info cs bs = some (c, bs1) ∧
        firstMatch fired info cs = some c ∧ c ∈ cs ∧ bs1.length = cs.length ∧
        (∀ (j : Nat) (hj : j < cs.length) (hb : j < bs1.length),
          bs1[j] = true ↔ (cs[j]).name ∈ (c.name :: fired))) := by
  intro cs
  induction cs with
  | nil =>
    intro bs fired _ _ _
    left
    cases bs <;> exact ⟨rfl, rfl⟩
  | cons c cs ihcs =>
    intro bs fired hlen hinv hnd
    cases bs with
    | nil => exact absurd hlen (by simp)
    | cons b bs =>
      have hlen' : bs.length = cs.length := by simpa using hlen
      have hinv0 : b = true ↔ c.name ∈ fired := by
        simpa using hinv 0 (by simp) (by simp)
      obtain ⟨hnamenotin, hnd'⟩ :
          c.name ∉ cs.map (fun c => c.name) ∧ (cs.map (fun c => c.name)).Nodup := by
        simpa [List.nodup_cons] using hnd
      have hinv' : ∀ (j : Nat) (hj : j < cs.length) (hb : j < bs.length),
          bs[j] = true ↔ (cs[j]).name ∈ fired := by
        intro j hj hb
        simpa using hinv (j + 1) (by simpa using Nat.succ_lt_succ hj)
          (by simpa using Nat.succ_lt_succ hb)
      by_cases htake : b = false ∧ c.condition info = true
      · -- both scans take the head rule
        obtain ⟨hbf, hcond⟩ := htake
        have hnotin : c.name ∉ fired := by
          intro hin
          rw [hinv0.mpr hin] at hbf
          exact Bool.noConfusion hbf
        have hcont : fired.contains c.name = false := by
          cases hcc : fired.contains c.name with
          | false => rfl
          | true => exact absurd (List.elem_iff.mp hcc) hnotin
        right
        refine ⟨c, true :: bs, ?_, ?_, List.mem_cons_self _ _, by simp [hlen'], ?_⟩
        · simp [findRuleSpec, hbf, hcond]
        · rw [firstMatch, if_pos (by rw [hcond, hcont]; rfl)]
        · intro j hj hbj
          cases j with
          | zero => simp
          | succ j =>
            have hj' : j < cs.length := by simpa using hj
            have hbj' : j < bs.length := by omega
            have hne : (cs[j]).name ≠ c.name := by
              intro he
              exact hnamenotin (he ▸ List.mem_map_of_mem _ (cs.getElem_mem hj'))
            simp only [List.getElem_cons_succ]
            rw [hinv' j hj' hbj']
            simp [List.mem_cons, hne]
      · -- both scans skip the head rule
        have hfmcond : (c.condition info && !(fired.contains c.name)) = false := by
          by_cases hcond : c.condition info = true
          · have hb : b = true := by
              cases b with
              | false => exact absurd ⟨rfl, hcond⟩ htake
              | true => rfl
            have hcont : fired.contains c.name = true := List.elem_iff.mpr (hinv0.mp hb)
            rw [hcond, hcont]
            rfl
          · have : c.condition info = false := by
              cases hcc : c.condition info with
              | false => rfl
              | true => exact absurd hcc hcond
            simp [this]
        have hfm : firstMatch fired info (c :: cs) = firstMatch fired info cs := by
          rw [firstMatch, if_neg (by rw [hfmcond]; simp)]
        have hfr : findRuleSpec info (c :: cs) (b :: bs) =
            match findRuleSpec info cs bs with
            | some (r, bs1) => some (r, b :: bs1)
            | none => none := by
          rw [findRuleSpec, if_neg htake]
        rcases ihcs bs fired hlen' hinv' hnd' with ⟨h1, h2⟩ |
          ⟨r, bs1, h1, h2, hrmem, hlen1, hinv1⟩
        · left
          rw [hfr, h1, hfm, h2]
          exact ⟨rfl, rfl⟩
        · right
          refine ⟨r, b :: bs1, ?_, ?_, List.mem_cons_of_mem _ hrmem, by simp [hlen1], ?_⟩
          · rw [hfr, h1]
          · rw [hfm, h2]
          · intro j hj hbj
            cases j with
            | zero =>
              have hne : c.name ≠ r.name := by
                intro he
                exact hnamenotin (he ▸ List.mem_map_of_mem _ hrmem)
              simp only [List.getElem_cons_zero]
              rw [hinv0]
              simp [List.mem_cons, hne]
            | succ j =>
              have hj' : j < cs.length := by simpa using hj
              have hbj' : j < bs1.length := by omega
              simp only [List.getElem_cons_succ]
              exact hinv1 j hj' hbj'

/-- The two selection loops agree as long as the fired dictionary and the
fired flags encode the same information. -/
lemma loop_agree (criteria : List Criterion)
    (hnd : (criteria.map (fun c => c.name)).Nodup) :
    ∀ (ts : List TextTrack) (bs : List Bool) (fired : List String),
      bs.length = criteria.length →
      (∀ (j : Nat) (hj : j < criteria.length) (hb : j < bs.length),
        bs[j] = true ↔ (criteria[j]).name ∈ fired) →
      selectSpecLoop criteria ts bs = select_loop criteria ts fired := by
  intro ts
  induction ts with
  | nil => intro bs fired _ _; simp [selectSpecLoop, select_loop]
  | cons t ts ih =>
    intro bs fired hlen hinv
    rcases matcher_agree (mkSubtitleInfo t) criteria bs fired hlen hinv hnd with
      ⟨h1, h2⟩ | ⟨c, bs1, h1, h2, _, hlen1, hinv1⟩
    · rw [selectSpecLoop, select_loop, h1, h2]
      exact ih bs fired hlen hinv
    · rw [selectSpecLoop, select_loop, h1, h2]
      exact congrArg _ (ih bs1 (c.name :: fired) hlen1 hinv1)

/-! ## C1: the subtitle selector refines the spec's algorithm -/

/-- C1: for every stream list and every rule table (with the pairwise
distinct rule names the spec's data model stipulates), the selector is
exactly the spec's algorithm — scan streams in ascending order, assign each
stream to the first not-yet-fired rule whose predicate accepts its attributes
(language, proportion scaled by 1000), record the rule's name, priority and
default flag, mark the rule fired (so each stream is assigned at most once),
and finally sort the selections ascending by rule priority. -/
theorem c1_selector_refines_spec :
    ∀ (criteria : List Criterion) (tracks : List TextTrack),
      (criteria.map (fun c => c.name)).Nodup →
      get_subtitles_pure criteria tracks = selectSubtitlesSpec criteria tracks := by
  intro criteria tracks hnd
  unfold get_subtitles_pure selectSubtitlesSpec
  refine congrArg _ ?_
  refine (loop_agree criteria hnd tracks (criteria.map fun _ => false) [] (by simp) ?_).symm
  intro j hj hb
  simp

/-- C1 witness: the refinement at the default rule table (whose three names
are distinct) and the worked example's streams. -/
theorem c1_witness :
    (SUBTITLE_CRITERIA.map (fun c => c.name)).Nodup ∧
    get_subtitles_pure SUBTITLE_CRITERIA c4_streams_scaled =
      selectSubtitlesSpec SUBTITLE_CRITERIA c4_streams_scaled :=
  ⟨by decide, c1_selector_refines_spec SUBTITLE_CRITERIA c4_streams_scaled (by decide)⟩

end AutoEncode
